import Mathlib

/-!
Formal model of the Choreograph `Sequence` class
(`src/choreograph/Sequence.hpp`), a time-indexed interpolation engine.
Times and values are modelled as rationals; the phrase container as a
`List`; the easing/blend functions as rational functions of normalized
progress.  `Phrase.hpp` (an external collaborator of the core, per the
spec) is not under `src/`, so the `Phrase` interface the Sequence
consumes is modelled from the spec.
-/

namespace Choreograph

/-- Modelled from the spec: the "none"/identity easing policy — direct
unblended interpolation, i.e. the identity on normalized progress.
(`easeNone` lives in the easing-function family outside `src/`.) -/
def easeNone (t : ℚ) : ℚ := t

/-- Modelled from the spec: the "hold" easing policy — the blend ignores
progress, so a phrase whose start and end values agree outputs that
fixed value across its whole span. -/
def easeHold (_ : ℚ) : ℚ := 0

/-- A single value at a point in time; a construction convenience for
phrases, mirroring `Position<T>`. -/
structure Position where
  value : ℚ
  time : ℚ

/-- Modelled from the spec: a `Phrase<T>` is a timed segment
`(startValue, startTime, endValue, endTime, blendFn)` providing
value-at-time evaluation over its span, accessors for its four
endpoints, mutators to rebind its start value and to shift its start
time preserving its span, and a mutable blend-function slot. -/
structure Phrase where
  startValue : ℚ
  endValue : ℚ
  startTime : ℚ
  endTime : ℚ
  motion : ℚ → ℚ

instance : Inhabited Phrase := ⟨⟨0, 0, 0, 0, easeNone⟩⟩

/-- Phrase construction from two positions and a blend function,
mirroring `Phrase<T>( start, end, motion )`. -/
def Phrase.mk2 (s e : Position) (f : ℚ → ℚ) : Phrase :=
  ⟨s.value, e.value, s.time, e.time, f⟩

/-- Normalized progress of time `t` within the phrase's span. -/
def Phrase.normalizeTime (p : Phrase) (t : ℚ) : ℚ :=
  (t - p.startTime) / (p.endTime - p.startTime)

/-- Modelled from the spec: the phrase's value-at-time contract —
interpolation between start and end value driven by the blend function
applied to normalized progress. -/
def Phrase.getValue (p : Phrase) (t : ℚ) : ℚ :=
  p.startValue + (p.endValue - p.startValue) * p.motion (p.normalizeTime t)

/-- Rebind the start value, as used by `Sequence::then( PhraseT )`. -/
def Phrase.setStartValue (p : Phrase) (v : ℚ) : Phrase :=
  { p with startValue := v }

/-- Shift the phrase so that it starts at time `t`, preserving its own
span, as used by `Sequence::then( PhraseT )`. -/
def Phrase.shiftStartTimeTo (p : Phrase) (t : ℚ) : Phrase :=
  { p with startTime := t, endTime := t + (p.endTime - p.startTime) }

/-- State of a `Sequence<T>`: the ordered phrase list, the initial
value, and the tracked duration, mirroring the three data members
`_phrases`, `_initial_value`, `_duration`. -/
structure Sequence where
  _phrases : List Phrase
  _initial_value : ℚ
  _duration : ℚ

/-- Mirrors `Sequence( const T &value )`: seed value, no phrases,
duration zero (`_duration`'s in-class initializer). -/
def Sequence.fromValue (value : ℚ) : Sequence := ⟨[], value, 0⟩

/-- Mirrors `getDuration()`. -/
def Sequence.getDuration (s : Sequence) : ℚ := s._duration

/-- Mirrors `endValue()`: `_phrases.empty() ? _initial_value :
_phrases.back().getEndValue()`. -/
def Sequence.endValue (s : Sequence) : ℚ :=
  match s._phrases.getLast? with
  | none => s._initial_value
  | some p => p.endValue

/-- Mirrors `initialValue()`. -/
def Sequence.initialValue (s : Sequence) : ℚ := s._initial_value

/-- Mirrors `getPhraseCount()`. -/
def Sequence.getPhraseCount (s : Sequence) : ℕ := s._phrases.length

/-- Mirrors `Sequence( const std::vector<PhraseT> &phrases )`: the
initial value from the first phrase's start value and the duration from
the last phrase's end time.  (As written the source initializer reads
`phrases.begin().getStartValue()`, a call on the iterator object itself
that fails to compile when the constructor is instantiated; this
definition follows the evident intent `phrases.begin()->getStartValue()`,
which the spec states outright.  On an empty list the source has
undefined behavior; the model falls back to the default phrase.) -/
def Sequence.fromPhrases (phrases : List Phrase) : Sequence :=
  ⟨phrases, (phrases.headD default).startValue,
    (phrases.getLastD default).endTime⟩

/-- Mirrors `getValue( float atTime )`: clamp below zero to the initial
value, clamp at or above the duration to the end value, otherwise scan
the phrases in order and evaluate the first one whose end time is
strictly greater than `atTime`; the final fallback returns the end
value. -/
def Sequence.getValue (s : Sequence) (atTime : ℚ) : ℚ :=
  if atTime < 0 then s._initial_value
  else if s._duration ≤ atTime then s.endValue
  else
    match s._phrases.find? (fun p => decide (atTime < p.endTime)) with
    | some p => p.getValue atTime
    | none => s.endValue

/-- Truncation toward zero of a rational, as C's `fmodf` computes its
quotient. -/
def trunc (q : ℚ) : ℤ := if 0 ≤ q then ⌊q⌋ else ⌈q⌉

/-- Exact-rational model of C's `fmodf x y = x - y * trunc (x / y)` for
`y ≠ 0` (the result carries the sign of `x`). -/
def fmodf (x y : ℚ) : ℚ := x - y * (trunc (x / y) : ℚ)

/-- Mirrors `wrapTime( float time, float inflectionPoint )`: when `time`
exceeds the duration, offset by the inflection point the remainder of
`time` modulo the distance from the inflection point to the duration;
otherwise return `time` unchanged. -/
def Sequence.wrapTime (s : Sequence) (time inflectionPoint : ℚ) : ℚ :=
  if s.getDuration < time then
    inflectionPoint + fmodf time (s.getDuration - inflectionPoint)
  else
    time

/-- Mirrors `getValueWrapped`. -/
def Sequence.getValueWrapped (s : Sequence) (time inflectionPoint : ℚ) : ℚ :=
  s.getValue (s.wrapTime time inflectionPoint)

/-- Mirrors `hold( const T &value, float duration )`: append a phrase
pinned at `value` spanning from the current duration, with the hold
blend, then advance the duration to the new phrase's end time. -/
def Sequence.hold (s : Sequence) (value duration : ℚ) : Sequence :=
  let start : Position := ⟨value, s._duration⟩
  let stop : Position := ⟨value, s._duration + duration⟩
  let phrase := Phrase.mk2 start stop easeHold
  { s with _phrases := s._phrases ++ [phrase], _duration := phrase.endTime }

/-- Mirrors the one-argument `hold( float duration )`: hold on the
current end value. -/
def Sequence.holdDur (s : Sequence) (duration : ℚ) : Sequence :=
  s.hold s.endValue duration

/-- Mirrors `wait( float duration )`, an alias of the one-argument
`hold`. -/
def Sequence.wait (s : Sequence) (duration : ℚ) : Sequence :=
  s.holdDur duration

/-- Mirrors `set( const T &value )`: on an empty phrase list overwrite
the initial value, otherwise `hold( value, 0 )`. -/
def Sequence.set (s : Sequence) (value : ℚ) : Sequence :=
  if s._phrases.isEmpty then { s with _initial_value := value }
  else s.hold value 0

/-- Mirrors `rampTo( const T &value, float duration, const EaseFn & )`:
append a phrase from the current end value to `value`, then advance the
duration. -/
def Sequence.rampTo (s : Sequence) (value duration : ℚ) (f : ℚ → ℚ) : Sequence :=
  let start : Position := ⟨s.endValue, s._duration⟩
  let stop : Position := ⟨value, s._duration + duration⟩
  let phrase := Phrase.mk2 start stop f
  { s with _phrases := s._phrases ++ [phrase], _duration := phrase.endTime }

/-- Mirrors the variadic `then( const T &value, float duration, Args... )`
at the default phrase type, where the forwarded argument is the blend
function. -/
def Sequence.thenVal (s : Sequence) (value duration : ℚ) (f : ℚ → ℚ) : Sequence :=
  let start : Position := ⟨s.endValue, s._duration⟩
  let stop : Position := ⟨value, s._duration + duration⟩
  let phrase := Phrase.mk2 start stop f
  { s with _phrases := s._phrases ++ [phrase], _duration := phrase.endTime }

/-- Mirrors `then( PhraseT phrase )`: rebind the phrase's start value to
the current end value, shift its start time to the current duration,
advance the duration, and append. -/
def Sequence.thenPhrase (s : Sequence) (phrase : Phrase) : Sequence :=
  let p1 := phrase.setStartValue s.endValue
  let p2 := p1.shiftStartTimeTo s._duration
  { s with _phrases := s._phrases ++ [p2], _duration := p2.endTime }

/-- Mirrors `ease( const EaseFn & )`: replace the blend function of the
last phrase when one exists, otherwise do nothing. -/
def Sequence.ease (s : Sequence) (f : ℚ → ℚ) : Sequence :=
  match s._phrases.getLast? with
  | none => s
  | some p => { s with _phrases := s._phrases.dropLast ++ [{ p with motion := f }] }

/-- Mirrors `slice( size_t begin, size_t size )`, with the two
assertions made explicit: `none` exactly when a precondition fails,
otherwise the sequence built from phrases `[begin, begin+size)`. -/
def Sequence.slice (s : Sequence) (b size : ℕ) : Option Sequence :=
  if b < s._phrases.length ∧ b + size ≤ s._phrases.length then
    some (Sequence.fromPhrases ((s._phrases.drop b).take size))
  else none

/-- The duration bookkeeping invariant of the data model:
`_duration == (_phrases.empty() ? 0 : _phrases.back().getEndTime())`. -/
def durationInv (s : Sequence) : Prop :=
  s._duration = match s._phrases.getLast? with
    | none => 0
    | some p => p.endTime

instance (s : Sequence) : Decidable (durationInv s) := by
  unfold durationInv; infer_instance

/-- Value continuity of a phrase list: each phrase's end value equals
the next phrase's start value. -/
def valueContinuous (ps : List Phrase) : Prop :=
  List.Chain' (fun p q => p.endValue = q.startValue) ps

instance : DecidableRel (fun (p q : Phrase) => p.endValue = q.startValue) :=
  fun p q => inferInstanceAs (Decidable (p.endValue = q.startValue))

instance (ps : List Phrase) : Decidable (valueContinuous ps) := by
  unfold valueContinuous; infer_instance

/-- The five-second scenario from the spec:
`Sequence<float> s(0.0f); s.rampTo(10.0f, 2.0f); s.hold(1.0f);
s.rampTo(0.0f, 2.0f);`. -/
def ex5 : Sequence :=
  (((Sequence.fromValue 0).rampTo 10 2 easeNone).holdDur 1).rampTo 0 2 easeNone

/-- The set-on-empty scenario from the spec:
`Sequence<float> s(3.0f); s.set(7.0f);`. -/
def exSet : Sequence := (Sequence.fromValue 3).set 7

/-- A one-phrase sequence of duration one, used to exercise `wrapTime`. -/
def exUnit : Sequence := (Sequence.fromValue 0).hold 0 1

/-- A sequence built by `rampTo` followed by a `set` to a different
value: the second phrase starts at 5 while the first ends at 10. -/
def exJump : Sequence := ((Sequence.fromValue 0).rampTo 10 1 easeNone).set 5

/-- A sample phrase for exercising the phrase-list constructor. -/
def exPhrase : Phrase := ⟨1, 2, 0, 3, easeNone⟩

/-- The last phrase of `ex5` (the final ramp from 10 down to 0 over
seconds 3 to 5). -/
def ex5last : Phrase := ⟨10, 0, 3, 5, easeNone⟩

/-- The single phrase of `exUnit`: a hold at 0 over the first second. -/
def exUnitPhrase : Phrase := ⟨0, 0, 0, 1, easeHold⟩

/-- The sequence obtained by slicing phrases `[1, 3)` out of `ex5`. -/
def exSlice : Sequence := Sequence.fromPhrases ((ex5._phrases.drop 1).take 2)

/-- A successful `find?` splits its list into a failing prefix, the
found element, and a remainder. -/
theorem find?_eq_some_split {α : Type _} {p : α → Bool} {l : List α} {b : α}
    (h : l.find? p = some b) :
    ∃ l₁ l₂, l = l₁ ++ b :: l₂ ∧ (∀ x ∈ l₁, p x = false) ∧ p b = true := by
  induction l with
  | nil => simp [List.find?] at h
  | cons a as ih =>
    rw [List.find?_cons] at h
    cases hpa : p a with
    | true =>
      simp [hpa] at h
      subst h
      exact ⟨[], as, rfl, by simp, hpa⟩
    | false =>
      simp [hpa] at h
      obtain ⟨l₁, l₂, hsplit, hall, hb⟩ := ih h
      exact ⟨a :: l₁, l₂, by simp [hsplit], by
        intro x hx
        rcases List.mem_cons.mp hx with hx | hx
        · exact hx ▸ hpa
        · exact hall x hx, hb⟩

/-- `fmodf x m` for `0 ≤ x` and `0 < m` is nonnegative and below `m`,
exactly as C's `fmodf` behaves on these arguments. -/
theorem fmodf_bounds {x m : ℚ} (hx : 0 ≤ x) (hm : 0 < m) :
    0 ≤ fmodf x m ∧ fmodf x m < m := by
  have hq : 0 ≤ x / m := div_nonneg hx hm.le
  have htr : trunc (x / m) = ⌊x / m⌋ := if_pos hq
  have h1 : (⌊x / m⌋ : ℚ) * m ≤ x := (le_div_iff₀ hm).mp (Int.floor_le (x / m))
  have h2 : x < ((⌊x / m⌋ : ℚ) + 1) * m := (div_lt_iff₀ hm).mp (Int.lt_floor_add_one (x / m))
  unfold fmodf
  rw [htr]
  constructor
  · nlinarith
  · nlinarith

/-- The end value of a sequence whose phrase list ends in `a` is
`a`'s end value. -/
theorem endValue_concat (s : Sequence) (L : List Phrase) (a : Phrase)
    (h : s._phrases = L ++ [a]) : s.endValue = a.endValue := by
  unfold Sequence.endValue
  rw [h, List.getLast?_concat]

/-- Appending a phrase whose start value matches the list's final end
value preserves value continuity. -/
theorem valueContinuous_concat {l : List Phrase} {p : Phrase}
    (h : valueContinuous l)
    (hp : ∀ q, l.getLast? = some q → q.endValue = p.startValue) :
    valueContinuous (l ++ [p]) := by
  unfold valueContinuous at h ⊢
  rw [List.chain'_append]
  refine ⟨h, List.chain'_singleton p, ?_⟩
  intro x hx y hy
  simp only [List.head?_cons, Option.mem_def, Option.some.injEq] at hy
  subst hy
  exact hp x (by simpa using hx)

/-- On a sequence satisfying the duration invariant, the scan predicate
of `getValue` succeeds for every in-range time: some phrase's end time
strictly exceeds the query time. -/
theorem find_covering_phrase (s : Sequence) (t : ℚ) (hinv : durationInv s)
    (h0 : 0 ≤ t) (hlt : t < s.getDuration) :
    ∃ p, s._phrases.find? (fun q => decide (t < q.endTime)) = some p ∧
      t < p.endTime := by
  unfold Sequence.getDuration at hlt
  have hne : s._phrases ≠ [] := by
    intro h
    unfold durationInv at hinv
    rw [h] at hinv
    simp at hinv
    rw [hinv] at hlt
    linarith
  have hlast : s._phrases.getLast? = some (s._phrases.getLast hne) :=
    List.getLast?_eq_getLast _ hne
  have hend : (s._phrases.getLast hne).endTime = s._duration := by
    unfold durationInv at hinv
    rw [hlast] at hinv
    exact hinv.symm
  have hsome : (s._phrases.find? (fun q => decide (t < q.endTime))).isSome = true := by
    rw [List.find?_isSome]
    exact ⟨s._phrases.getLast hne, List.getLast_mem hne, by
      rw [decide_eq_true_eq, hend]; exact hlt⟩
  obtain ⟨p, hp⟩ := Option.isSome_iff_exists.mp hsome
  refine ⟨p, hp, ?_⟩
  have hpt := List.find?_some hp
  exact of_decide_eq_true hpt

/-- C1: for every sequence (satisfying the data model's duration
invariant and nonnegative duration), `getValue` clamps: a negative time
yields the initial value; a time at or past the duration yields the end
value, which is the last phrase's end value or the initial value when
the phrase list is empty; and an empty sequence yields the initial
value at every time. -/
theorem C1_getValue_clamps (s : Sequence) (t : ℚ)
    (hinv : durationInv s) (hd : 0 ≤ s._duration) :
    (t < 0 → s.getValue t = s.initialValue) ∧
    (s.getDuration ≤ t → s.getValue t = s.endValue) ∧
    (s._phrases = [] → s.endValue = s.initialValue) ∧
    (∀ p, s._phrases.getLast? = some p → s.endValue = p.endValue) ∧
    (s._phrases = [] → s.getValue t = s.initialValue) := by
  refine ⟨?_, ?_, ?_, ?_, ?_⟩
  · intro ht
    simp [Sequence.getValue, Sequence.initialValue, ht]
  · intro ht
    unfold Sequence.getDuration at ht
    have hnn : ¬ t < 0 := by linarith
    simp [Sequence.getValue, hnn, ht]
  · intro h
    simp [Sequence.endValue, Sequence.initialValue, h]
  · intro p hp
    simp [Sequence.endValue, hp]
  · intro h
    have hdur : s._duration = 0 := by
      unfold durationInv at hinv
      rw [h] at hinv
      simpa using hinv
    by_cases ht : t < 0
    · simp [Sequence.getValue, Sequence.initialValue, ht]
    · have hge : s._duration ≤ t := by rw [hdur]; exact not_lt.mp ht
      simp [Sequence.getValue, Sequence.initialValue, Sequence.endValue, ht, hge, h]

/-- Closed instance of C1 at the spec's five-second scenario and time
minus one. -/
theorem C1_witness :
    durationInv ex5 ∧ 0 ≤ ex5._duration ∧ ex5.getValue (-1) = ex5.initialValue := by
  have hinv : durationInv ex5 := by
    simp [durationInv, ex5, Sequence.rampTo, Sequence.holdDur, Sequence.hold,
      Sequence.fromValue, Phrase.mk2, Sequence.endValue]
  have hd : 0 ≤ ex5._duration := by
    simp [ex5, Sequence.rampTo, Sequence.holdDur, Sequence.hold,
      Sequence.fromValue, Phrase.mk2, Sequence.endValue]
    norm_num
  exact ⟨hinv, hd, (C1_getValue_clamps ex5 (-1) hinv hd).1 (by norm_num)⟩

/-- C2: for an in-range time on a nonempty sequence satisfying the
duration invariant, `getValue` splits the phrase list at the first
phrase whose end time strictly exceeds the query time: all earlier
phrases end at or before that time (so a phrase ending exactly at the
query time does not own that instant), and the result is that phrase's
own value-at-time evaluation. -/
theorem C2_scan_first_match (s : Sequence) (t : ℚ)
    (hinv : durationInv s) (hcnt : 0 < s.getPhraseCount)
    (h0 : 0 ≤ t) (hlt : t < s.getDuration) :
    ∃ l₁ p l₂, s._phrases = l₁ ++ p :: l₂ ∧
      (∀ q ∈ l₁, q.endTime ≤ t) ∧
      t < p.endTime ∧
      s.getValue t = p.getValue t := by
  obtain ⟨p, hp, hpt⟩ := find_covering_phrase s t hinv h0 hlt
  obtain ⟨l₁, l₂, hsplit, hall, _⟩ := find?_eq_some_split hp
  refine ⟨l₁, p, l₂, hsplit, ?_, hpt, ?_⟩
  · intro q hq
    exact not_lt.mp (of_decide_eq_false (hall q hq))
  · unfold Sequence.getDuration at hlt
    have hnn : ¬ t < 0 := not_lt.mpr h0
    have hnd : ¬ s._duration ≤ t := not_le.mpr hlt
    simp [Sequence.getValue, hnn, hnd, hp]

/-- Closed instance of C2 at the spec's five-second scenario and time
one. -/
theorem C2_witness :
    durationInv ex5 ∧ 0 < ex5.getPhraseCount ∧ (0:ℚ) ≤ 1 ∧ (1:ℚ) < ex5.getDuration ∧
    ∃ l₁ p l₂, ex5._phrases = l₁ ++ p :: l₂ ∧
      (∀ q ∈ l₁, q.endTime ≤ 1) ∧
      (1:ℚ) < p.endTime ∧
      ex5.getValue 1 = p.getValue 1 := by
  have hinv : durationInv ex5 := by
    simp [durationInv, ex5, Sequence.rampTo, Sequence.holdDur, Sequence.hold,
      Sequence.fromValue, Phrase.mk2, Sequence.endValue]
  have hcnt : 0 < ex5.getPhraseCount := by
    norm_num [ex5, Sequence.rampTo, Sequence.holdDur, Sequence.hold,
      Sequence.fromValue, Phrase.mk2, Sequence.getPhraseCount, Sequence.endValue]
  have h0 : (0:ℚ) ≤ 1 := by norm_num
  have hlt : (1:ℚ) < ex5.getDuration := by
    norm_num [ex5, Sequence.rampTo, Sequence.holdDur, Sequence.hold,
      Sequence.fromValue, Phrase.mk2, Sequence.getDuration, Sequence.endValue]
  exact ⟨hinv, hcnt, h0, hlt, C2_scan_first_match ex5 1 hinv hcnt h0 hlt⟩

/-- C10: for every sequence satisfying the duration invariant and every
in-range time, the phrase scan of `getValue` finds a phrase whose end
time strictly exceeds the time, and `getValue` returns that phrase's
evaluation — the fallback return after the loop is never the result. -/
theorem C10_fallback_unreachable (s : Sequence) (t : ℚ)
    (hinv : durationInv s) (h0 : 0 ≤ t) (hlt : t < s.getDuration) :
    ∃ p, s._phrases.find? (fun q => decide (t < q.endTime)) = some p ∧
      t < p.endTime ∧ s.getValue t = p.getValue t := by
  obtain ⟨p, hp, hpt⟩ := find_covering_phrase s t hinv h0 hlt
  refine ⟨p, hp, hpt, ?_⟩
  unfold Sequence.getDuration at hlt
  have hnn : ¬ t < 0 := not_lt.mpr h0
  have hnd : ¬ s._duration ≤ t := not_le.mpr hlt
  simp [Sequence.getValue, hnn, hnd, hp]

/-- Closed instance of C10 at the spec's five-second scenario and time
five halves. -/
theorem C10_witness :
    durationInv ex5 ∧ (0:ℚ) ≤ 5/2 ∧ (5/2:ℚ) < ex5.getDuration ∧
    ∃ p, ex5._phrases.find? (fun q => decide ((5/2:ℚ) < q.endTime)) = some p ∧
      (5/2:ℚ) < p.endTime ∧ ex5.getValue (5/2) = p.getValue (5/2) := by
  have hinv : durationInv ex5 := by
    simp [durationInv, ex5, Sequence.rampTo, Sequence.holdDur, Sequence.hold,
      Sequence.fromValue, Phrase.mk2, Sequence.endValue]
  have h0 : (0:ℚ) ≤ 5/2 := by norm_num
  have hlt : (5/2:ℚ) < ex5.getDuration := by
    norm_num [ex5, Sequence.rampTo, Sequence.holdDur, Sequence.hold,
      Sequence.fromValue, Phrase.mk2, Sequence.getDuration, Sequence.endValue]
  exact ⟨hinv, h0, hlt, C10_fallback_unreachable ex5 (5/2) hinv h0 hlt⟩

/-- C3 as frozen is false: on a sequence of duration one, with
inflection point two and query time three, `wrapTime` returns two, which
does not lie within `[inflectionPoint, duration] = [2, 1]`. -/
theorem C3_counterexample :
    ¬ (2 ≤ exUnit.wrapTime 3 2 ∧ exUnit.wrapTime 3 2 ≤ exUnit.getDuration) := by
  have hw : exUnit.wrapTime 3 2 = 2 := by
    norm_num [exUnit, Sequence.wrapTime, Sequence.getDuration, Sequence.hold,
      Sequence.fromValue, Phrase.mk2, fmodf, trunc]
    rw [show ((-3 : ℚ)) = ((-3 : ℤ) : ℚ) by norm_num]
    rw [Int.ceil_intCast]
    norm_num
  have hd : exUnit.getDuration = 1 := by
    norm_num [exUnit, Sequence.getDuration, Sequence.hold,
      Sequence.fromValue, Phrase.mk2]
  rw [hw, hd]
  norm_num

/-- C3 amended: for an inflection point strictly below the (nonnegative)
duration, `wrapTime` leaves times at or below the duration unchanged,
and maps a time beyond the duration to the inflection point plus the
`fmodf` remainder of the time by the distance from the inflection point
to the duration, landing within `[inflectionPoint, duration]`. -/
theorem C3_wrapTime_spec (s : Sequence) (t ip : ℚ)
    (hd : 0 ≤ s.getDuration) (hip : ip < s.getDuration) :
    (t ≤ s.getDuration → s.wrapTime t ip = t) ∧
    (s.getDuration < t →
      s.wrapTime t ip = ip + fmodf t (s.getDuration - ip) ∧
      ip ≤ s.wrapTime t ip ∧ s.wrapTime t ip ≤ s.getDuration) := by
  constructor
  · intro ht
    unfold Sequence.wrapTime
    rw [if_neg (not_lt.mpr ht)]
  · intro ht
    have heq : s.wrapTime t ip = ip + fmodf t (s.getDuration - ip) := by
      unfold Sequence.wrapTime
      rw [if_pos ht]
    have hm : 0 < s.getDuration - ip := sub_pos.mpr hip
    have ht0 : 0 ≤ t := le_trans hd ht.le
    obtain ⟨h1, h2⟩ := fmodf_bounds ht0 hm
    refine ⟨heq, ?_, ?_⟩
    · rw [heq]; linarith
    · rw [heq]; linarith

/-- Closed instance of the amended C3 on the unit-duration sequence,
inflection point one half. -/
theorem C3_witness :
    0 ≤ exUnit.getDuration ∧ (1/2 : ℚ) < exUnit.getDuration ∧
    (exUnit.getDuration < 7/4 →
      exUnit.wrapTime (7/4) (1/2) = 1/2 + fmodf (7/4) (exUnit.getDuration - 1/2) ∧
      (1/2:ℚ) ≤ exUnit.wrapTime (7/4) (1/2) ∧
      exUnit.wrapTime (7/4) (1/2) ≤ exUnit.getDuration) := by
  have hd : 0 ≤ exUnit.getDuration := by
    norm_num [exUnit, Sequence.getDuration, Sequence.hold, Sequence.fromValue, Phrase.mk2]
  have hip : (1/2 : ℚ) < exUnit.getDuration := by
    norm_num [exUnit, Sequence.getDuration, Sequence.hold, Sequence.fromValue, Phrase.mk2]
  exact ⟨hd, hip, (C3_wrapTime_spec exUnit (7/4) (1/2) hd hip).2⟩

/-- C4: the invariant `_duration == (empty ? 0 : last.endTime)` is
established by both constructors and preserved by every operation, and
every append operation adding a phrase of span `d` advances the
duration by exactly `d` in the same call. -/
theorem C4_duration_bookkeeping (s : Sequence) (ps : List Phrase)
    (v d : ℚ) (f : ℚ → ℚ) (p : Phrase) (hinv : durationInv s) :
    durationInv (Sequence.fromValue v) ∧
    durationInv (Sequence.fromPhrases ps) ∧
    durationInv (s.hold v d) ∧
    durationInv (s.holdDur d) ∧
    durationInv (s.wait d) ∧
    durationInv (s.rampTo v d f) ∧
    durationInv (s.thenVal v d f) ∧
    durationInv (s.thenPhrase p) ∧
    durationInv (s.set v) ∧
    durationInv (s.ease f) ∧
    (s.hold v d).getDuration = s.getDuration + d ∧
    (s.holdDur d).getDuration = s.getDuration + d ∧
    (s.wait d).getDuration = s.getDuration + d ∧
    (s.rampTo v d f).getDuration = s.getDuration + d ∧
    (s.thenVal v d f).getDuration = s.getDuration + d ∧
    (s.thenPhrase p).getDuration = s.getDuration + (p.endTime - p.startTime) ∧
    (s._phrases ≠ [] → (s.set v).getDuration = s.getDuration + 0) := by
  have hhold : ∀ w e, durationInv (s.hold w e) := by
    intro w e
    simp [durationInv, Sequence.hold, Phrase.mk2, List.getLast?_concat]
  have hset : durationInv (s.set v) := by
    unfold Sequence.set
    split
    · simpa [durationInv] using hinv
    · exact hhold v 0
  have hease : durationInv (s.ease f) := by
    rcases List.eq_nil_or_concat s._phrases with hnil | ⟨L, b, hcat⟩
    · have hnone : s._phrases.getLast? = none := by rw [hnil]; rfl
      unfold Sequence.ease
      rw [hnone]
      exact hinv
    · rw [List.concat_eq_append] at hcat
      have hlast : s._phrases.getLast? = some b := by
        rw [hcat]; exact List.getLast?_concat _
      unfold Sequence.ease
      rw [hlast]
      unfold durationInv at hinv ⊢
      rw [hlast] at hinv
      simp [hcat, List.dropLast_concat, List.getLast?_concat]
      exact hinv
  refine ⟨?_, ?_, hhold v d, hhold s.endValue d, hhold s.endValue d, ?_, ?_, ?_,
    hset, hease, ?_, ?_, ?_, ?_, ?_, ?_, ?_⟩
  · simp [durationInv, Sequence.fromValue]
  · rcases List.eq_nil_or_concat ps with hnil | ⟨L, b, hcat⟩
    · subst hnil
      simp [durationInv, Sequence.fromPhrases]
      rfl
    · rw [List.concat_eq_append] at hcat
      subst hcat
      simp [durationInv, Sequence.fromPhrases, List.getLastD_eq_getLast?,
        List.getLast?_concat]
  · simp [durationInv, Sequence.rampTo, Phrase.mk2, List.getLast?_concat]
  · simp [durationInv, Sequence.thenVal, Phrase.mk2, List.getLast?_concat]
  · simp [durationInv, Sequence.thenPhrase, Phrase.setStartValue,
      Phrase.shiftStartTimeTo, List.getLast?_concat]
  · simp [Sequence.hold, Sequence.getDuration, Phrase.mk2]
  · simp [Sequence.holdDur, Sequence.hold, Sequence.getDuration, Phrase.mk2]
  · simp [Sequence.wait, Sequence.holdDur, Sequence.hold, Sequence.getDuration, Phrase.mk2]
  · simp [Sequence.rampTo, Sequence.getDuration, Phrase.mk2]
  · simp [Sequence.thenVal, Sequence.getDuration, Phrase.mk2]
  · simp [Sequence.thenPhrase, Sequence.getDuration, Phrase.setStartValue,
      Phrase.shiftStartTimeTo]
  · intro hne
    unfold Sequence.set
    rw [if_neg (by simpa using hne)]
    simp [Sequence.hold, Sequence.getDuration, Phrase.mk2]

/-- Closed instance of C4 at the five-second scenario: holding for two
more seconds moves the duration from five to five plus two. -/
theorem C4_witness :
    durationInv ex5 ∧ (ex5.hold 1 2).getDuration = ex5.getDuration + 2 := by
  have hinv : durationInv ex5 := by
    simp [durationInv, ex5, Sequence.rampTo, Sequence.holdDur, Sequence.hold,
      Sequence.fromValue, Phrase.mk2, Sequence.endValue]
  obtain ⟨h1, h2, h3, h4, h5, h6, h7, h8, h9, h10, h11, hrest⟩ :=
    C4_duration_bookkeeping ex5 [] 1 2 easeNone default hinv
  exact ⟨hinv, h11⟩

/-- The end value of a sequence whose phrase list has last element `q`
is `q`'s end value. -/
theorem endValue_of_getLast? (s : Sequence) (q : Phrase)
    (h : s._phrases.getLast? = some q) : s.endValue = q.endValue := by
  unfold Sequence.endValue
  rw [h]

/-- Changing only the blend function of the final phrase preserves
value continuity. -/
theorem valueContinuous_motion_last {L : List Phrase} {b : Phrase} (f : ℚ → ℚ)
    (h : valueContinuous (L ++ [b])) :
    valueContinuous (L ++ [{ b with motion := f }]) := by
  unfold valueContinuous at h ⊢
  rw [List.chain'_append] at h ⊢
  obtain ⟨h1, _, h3⟩ := h
  refine ⟨h1, List.chain'_singleton _, ?_⟩
  intro x hx y hy
  simp only [List.head?_cons, Option.mem_def, Option.some.injEq] at hy
  subst hy
  exact h3 x hx b (by simp)

/-- C5 as frozen is false: `rampTo(10, 1)` followed by `set(5)` (a
chain of composition operations) leaves the first phrase ending at
value 10 while the second starts at value 5. -/
theorem C5_counterexample : ¬ valueContinuous exJump._phrases := by
  norm_num [valueContinuous, exJump, Sequence.set, Sequence.rampTo, Sequence.hold,
    Sequence.fromValue, Phrase.mk2, Sequence.endValue, List.chain'_cons,
    List.chain'_singleton]

/-- C5 amended: value continuity is preserved by the one-argument
`hold`, `wait`, `rampTo`, both forms of `then`, and `ease`, for every
argument they accept; the two-argument `hold`, and `set` on a non-empty
sequence, preserve it exactly when the supplied value equals the current
end value (`set` on an empty sequence appends nothing and is harmless).
Both constructors start from a continuous phrase list when the input
list is continuous. -/
theorem C5_value_continuity (s : Sequence) (v d : ℚ) (f : ℚ → ℚ) (p : Phrase)
    (h : valueContinuous s._phrases) :
    valueContinuous (Sequence.fromValue v)._phrases ∧
    (∀ qs : List Phrase, valueContinuous qs →
      valueContinuous (Sequence.fromPhrases qs)._phrases) ∧
    valueContinuous (s.holdDur d)._phrases ∧
    valueContinuous (s.wait d)._phrases ∧
    valueContinuous (s.rampTo v d f)._phrases ∧
    valueContinuous (s.thenVal v d f)._phrases ∧
    valueContinuous (s.thenPhrase p)._phrases ∧
    valueContinuous (s.ease f)._phrases ∧
    (v = s.endValue → valueContinuous (s.hold v d)._phrases) ∧
    ((s._phrases = [] ∨ v = s.endValue) → valueContinuous (s.set v)._phrases) := by
  have hcat : ∀ w e, w = s.endValue → valueContinuous (s.hold w e)._phrases := by
    intro w e hw
    show valueContinuous (s._phrases ++ [_])
    refine valueContinuous_concat h ?_
    intro q hq
    rw [← endValue_of_getLast? s q hq, Phrase.mk2, ← hw]
  have hsetc : (s._phrases = [] ∨ v = s.endValue) →
      valueContinuous (s.set v)._phrases := by
    intro hv
    unfold Sequence.set
    split
    case isTrue he =>
      simpa [valueContinuous] using h
    case isFalse he =>
      rcases hv with hv | hv
      · exact absurd (by simp [hv]) he
      · exact hcat v 0 hv
  refine ⟨by simp [Sequence.fromValue, valueContinuous], ?_, hcat _ d rfl, hcat _ d rfl,
    ?_, ?_, ?_, ?_, fun hv => hcat v d hv, hsetc⟩
  · intro qs hqs
    simpa [Sequence.fromPhrases] using hqs
  · show valueContinuous (s._phrases ++ [_])
    refine valueContinuous_concat h ?_
    intro q hq
    rw [← endValue_of_getLast? s q hq, Phrase.mk2]
  · show valueContinuous (s._phrases ++ [_])
    refine valueContinuous_concat h ?_
    intro q hq
    rw [← endValue_of_getLast? s q hq, Phrase.mk2]
  · show valueContinuous (s._phrases ++ [_])
    refine valueContinuous_concat h ?_
    intro q hq
    rw [← endValue_of_getLast? s q hq]
    rfl
  · rcases List.eq_nil_or_concat s._phrases with hnil | ⟨L, b, hc⟩
    · have hnone : s._phrases.getLast? = none := by rw [hnil]; rfl
      unfold Sequence.ease
      rw [hnone]
      exact h
    · rw [List.concat_eq_append] at hc
      have hlast : s._phrases.getLast? = some b := by
        rw [hc]; exact List.getLast?_concat _
      unfold Sequence.ease
      rw [hlast]
      show valueContinuous (s._phrases.dropLast ++ _)
      rw [hc, List.dropLast_concat]
      exact valueContinuous_motion_last f (hc ▸ h)

/-- Closed instance of the amended C5 at the five-second scenario:
ramping onward preserves continuity. -/
theorem C5_witness :
    valueContinuous ex5._phrases ∧ valueContinuous (ex5.rampTo 4 1 easeNone)._phrases := by
  have h : valueContinuous ex5._phrases := by
    norm_num [valueContinuous, ex5, Sequence.rampTo, Sequence.holdDur, Sequence.hold,
      Sequence.fromValue, Phrase.mk2, Sequence.endValue, List.chain'_cons,
      List.chain'_singleton]
  obtain ⟨g1, g2, g3, g4, g5, grest⟩ :=
    C5_value_continuity ex5 4 1 easeNone default h
  exact ⟨h, g5⟩

/-- C6 as frozen is false: after `Sequence<float> s(3.0f); s.set(7.0f);`
the phrase list is still empty (`set` on an empty sequence overwrites
the initial value instead of appending), so `getPhraseCount()` is 0, not
1, and `getValue(-1.0f)` is 7, not 3. -/
theorem C6_counterexample :
    ¬ (exSet.getPhraseCount = 1 ∧ exSet.endValue = 7 ∧
       exSet.getValue (-1) = 3 ∧ exSet.getValue 0 = 7) := by
  norm_num [exSet, Sequence.set, Sequence.fromValue, Sequence.getPhraseCount,
    Sequence.endValue, Sequence.getValue, Sequence.initialValue]

/-- C6 amended: after `Sequence<float> s(3.0f); s.set(7.0f);` the
sequence has no phrases — `set` on an empty sequence overwrites the
initial value — so the phrase count is 0, the initial and end values are
both 7, and `getValue` returns 7 at time -1 as well as at time 0. -/
theorem C6_set_on_empty :
    exSet.getPhraseCount = 0 ∧ exSet.endValue = 7 ∧ exSet.initialValue = 7 ∧
    exSet.getValue (-1) = 7 ∧ exSet.getValue 0 = 7 := by
  norm_num [exSet, Sequence.set, Sequence.fromValue, Sequence.getPhraseCount,
    Sequence.endValue, Sequence.getValue, Sequence.initialValue]

/-- C7: constructing a sequence from a non-empty phrase list takes the
initial value from the first phrase's start value, the duration from the
last phrase's end time, and stores the phrases unchanged.  (This is the
evident intent of the source constructor; as written its initializer
calls `getStartValue()` on `phrases.begin()` itself — the iterator, not
the first phrase — and fails to compile when instantiated.) -/
theorem C7_fromPhrases_intended (ps : List Phrase) (h : ps ≠ []) :
    (Sequence.fromPhrases ps).initialValue = (ps.head h).startValue ∧
    (Sequence.fromPhrases ps).getDuration = (ps.getLast h).endTime ∧
    (Sequence.fromPhrases ps)._phrases = ps := by
  refine ⟨?_, ?_, rfl⟩
  · unfold Sequence.fromPhrases Sequence.initialValue
    simp [List.headD_eq_head?, List.head?_eq_head h]
  · unfold Sequence.fromPhrases Sequence.getDuration
    simp [List.getLastD_eq_getLast?, List.getLast?_eq_getLast _ h]

/-- Closed instance of C7 at a one-phrase list. -/
theorem C7_witness :
    ([exPhrase] : List Phrase) ≠ [] ∧
    (Sequence.fromPhrases [exPhrase]).initialValue = 1 ∧
    (Sequence.fromPhrases [exPhrase]).getDuration = 3 := by
  have hne : ([exPhrase] : List Phrase) ≠ [] := by simp
  have h := C7_fromPhrases_intended [exPhrase] hne
  refine ⟨hne, ?_, ?_⟩
  · rw [h.1]; rfl
  · rw [h.2.1]; rfl

/-- C8: `slice(begin, size)` fails exactly when `begin` is at or past
the phrase count or `begin + size` exceeds it; otherwise it returns a
sequence holding exactly the source phrases `[begin, begin + size)`,
each one unchanged (in particular with its start and end times
preserved). -/
theorem C8_slice_spec (s : Sequence) (b n : ℕ) :
    (s.slice b n = none ↔ s.getPhraseCount ≤ b ∨ s.getPhraseCount < b + n) ∧
    (∀ r, s.slice b n = some r →
      r._phrases = (s._phrases.drop b).take n ∧
      ∀ i (h1 : i < r._phrases.length) (h2 : b + i < s._phrases.length),
        r._phrases.get ⟨i, h1⟩ = s._phrases.get ⟨b + i, h2⟩) := by
  constructor
  · unfold Sequence.slice Sequence.getPhraseCount
    split
    case isTrue hc =>
      simp only [reduceCtorEq, false_iff]
      omega
    case isFalse hc =>
      simp only [true_iff]
      omega
  · intro r hr
    unfold Sequence.slice at hr
    split at hr
    case isFalse hc => exact absurd hr (by simp)
    case isTrue hc =>
      have hr' : r = Sequence.fromPhrases ((s._phrases.drop b).take n) :=
        (Option.some.inj hr).symm
      subst hr'
      refine ⟨rfl, ?_⟩
      intro i h1 h2
      show ((s._phrases.drop b).take n).get ⟨i, h1⟩ = _
      simp [List.get_eq_getElem, List.getElem_take, List.getElem_drop]

/-- Closed instance of C8: slicing phrases `[1, 3)` out of the
five-second scenario succeeds and copies those two phrases unchanged. -/
theorem C8_witness :
    ex5.slice 1 2 = some exSlice ∧
    exSlice._phrases = (ex5._phrases.drop 1).take 2 := by
  have hlen : ex5._phrases.length = 3 := by
    norm_num [ex5, Sequence.rampTo, Sequence.holdDur, Sequence.hold,
      Sequence.fromValue, Phrase.mk2, Sequence.endValue]
  have he : ex5.slice 1 2 = some exSlice := by
    unfold Sequence.slice
    rw [if_pos (by omega)]
    rfl
  exact ⟨he, ((C8_slice_spec ex5 1 2).2 exSlice he).1⟩

/-- C9: `ease` replaces only the last phrase's blend function: it is the
identity on an empty sequence; it never changes the phrase count, the
duration, or the initial value; every phrase keeps its start and end
values and times; phrases other than the last are untouched entirely;
and when a last phrase exists, the result's last phrase is that phrase
with its motion replaced. -/
theorem C9_ease_only_motion (s : Sequence) (f : ℚ → ℚ) :
    (s._phrases = [] → s.ease f = s) ∧
    (s.ease f).getPhraseCount = s.getPhraseCount ∧
    (s.ease f).getDuration = s.getDuration ∧
    (s.ease f).initialValue = s.initialValue ∧
    (∀ i (h1 : i < (s.ease f)._phrases.length) (h2 : i < s._phrases.length),
      ((s.ease f)._phrases.get ⟨i, h1⟩).startValue = (s._phrases.get ⟨i, h2⟩).startValue ∧
      ((s.ease f)._phrases.get ⟨i, h1⟩).endValue = (s._phrases.get ⟨i, h2⟩).endValue ∧
      ((s.ease f)._phrases.get ⟨i, h1⟩).startTime = (s._phrases.get ⟨i, h2⟩).startTime ∧
      ((s.ease f)._phrases.get ⟨i, h1⟩).endTime = (s._phrases.get ⟨i, h2⟩).endTime) ∧
    (∀ i (h1 : i < (s.ease f)._phrases.length) (h2 : i < s._phrases.length),
      i + 1 < s._phrases.length →
      (s.ease f)._phrases.get ⟨i, h1⟩ = s._phrases.get ⟨i, h2⟩) ∧
    (∀ q, s._phrases.getLast? = some q →
      (s.ease f)._phrases.getLast? = some { q with motion := f }) := by
  rcases List.eq_nil_or_concat s._phrases with hnil | ⟨L, b, hc⟩
  · have hid : s.ease f = s := by
      unfold Sequence.ease
      rw [show s._phrases.getLast? = none from by rw [hnil]; rfl]
    refine ⟨fun _ => hid, by rw [hid], by rw [hid], by rw [hid], ?_, ?_, ?_⟩
    · intro i h1 h2
      rw [hnil] at h2
      exact absurd h2 (by simp)
    · intro i h1 h2
      rw [hnil] at h2
      exact absurd h2 (by simp)
    · intro q hq
      rw [hnil] at hq
      exact absurd hq (by simp)
  · rw [List.concat_eq_append] at hc
    have hlast : s._phrases.getLast? = some b := by
      rw [hc]; exact List.getLast?_concat _
    have heq : (s.ease f)._phrases = L ++ [{ b with motion := f }] := by
      unfold Sequence.ease
      rw [hlast]
      show s._phrases.dropLast ++ _ = _
      rw [hc, List.dropLast_concat]
    have hdur : (s.ease f).getDuration = s.getDuration := by
      unfold Sequence.ease
      rw [hlast]
      rfl
    have hini : (s.ease f).initialValue = s.initialValue := by
      unfold Sequence.ease
      rw [hlast]
      rfl
    have hlen : (s.ease f)._phrases.length = s._phrases.length := by
      rw [heq, hc]
      simp
    have hget : ∀ i (h1 : i < (s.ease f)._phrases.length) (h2 : i < s._phrases.length),
        (i < L.length → (s.ease f)._phrases.get ⟨i, h1⟩ = s._phrases.get ⟨i, h2⟩) ∧
        (i = L.length →
          (s.ease f)._phrases.get ⟨i, h1⟩ = { b with motion := f } ∧
          s._phrases.get ⟨i, h2⟩ = b) := by
      intro i h1 h2
      constructor
      · intro hi
        have e1 : (s.ease f)._phrases.get ⟨i, h1⟩ = L.get ⟨i, hi⟩ := by
          simp only [List.get_eq_getElem, heq]
          exact List.getElem_append_left hi
        have e2 : s._phrases.get ⟨i, h2⟩ = L.get ⟨i, hi⟩ := by
          simp only [List.get_eq_getElem, hc]
          exact List.getElem_append_left hi
        rw [e1, e2]
      · intro hi
        constructor
        · simp only [List.get_eq_getElem, heq]
          exact List.getElem_concat_length _ _ _ hi _
        · simp only [List.get_eq_getElem, hc]
          exact List.getElem_concat_length _ _ _ hi _
    refine ⟨?_, hlen, hdur, hini, ?_, ?_, ?_⟩
    · intro hnil'
      rw [hnil'] at hc
      exact absurd hc.symm (by simp)
    · intro i h1 h2
      have hi : i < L.length ∨ i = L.length := by
        rw [hc] at h2
        simp at h2
        omega
      rcases hi with hi | hi
      · rw [(hget i h1 h2).1 hi]
        exact ⟨rfl, rfl, rfl, rfl⟩
      · obtain ⟨e1, e2⟩ := (hget i h1 h2).2 hi
        rw [e1, e2]
        exact ⟨rfl, rfl, rfl, rfl⟩
    · intro i h1 h2 hlt
      have hi : i < L.length := by
        rw [hc] at hlt
        simp at hlt
        omega
      exact (hget i h1 h2).1 hi
    · intro q hq
      have hqb : q = b := by
        rw [hlast] at hq
        exact (Option.some.inj hq).symm
      subst hqb
      rw [heq]
      exact List.getLast?_concat _

/-- Closed instance of C9 on the unit-duration sequence: easing rewrites
the last (only) phrase's motion and nothing else. -/
theorem C9_witness :
    exUnit._phrases.getLast? = some exUnitPhrase ∧
    (exUnit.ease easeNone)._phrases.getLast? =
      some { exUnitPhrase with motion := easeNone } ∧
    (exUnit.ease easeNone).getDuration = exUnit.getDuration := by
  have hq : exUnit._phrases.getLast? = some exUnitPhrase := by
    simp [exUnit, Sequence.hold, Sequence.fromValue, Phrase.mk2, exUnitPhrase]
  obtain ⟨g1, g2, g3, grest⟩ := C9_ease_only_motion exUnit easeNone
  exact ⟨hq, grest.2.2.2 exUnitPhrase hq, g3⟩

end Choreograph
